import Mathlib

/-!
# hearnet: voice table, envelope and grain copy

Shallow embedding of `hearnet.cpp` (the voice synthesiser) and of the
`process` callback of `hearnet.c` (the grain player).

* The voice table `voices[MAX_VOICES]` is a list of `voice` records; the loops
  over the table and over the output buffer are recursions over these lists.
* The functions of `hearnet.cpp` are given twice.  In `hearnet_cpp` the numbers
  of type `float` are elements of a linearly ordered field `α`, with exact
  arithmetic: no rounding, no overflow, and the `x / 0 = 0` of the field where
  C has an infinity.  The definitions run on `ℚ` and the theorems hold on `ℝ`;
  they are used for what does not depend on rounding, under a positive sample
  rate.  In `hearnet_cpp.binary32` a `float` is an IEEE 754 binary32 value and
  every operation rounds as the machine does: sample counts, division by zero
  and NaN are settled there.
* The library functions `sin` and `pow` are parameters of the functions that
  call them, and the results of `rand()` are arguments of `packet_handler`.
* The C `int`s are `Int` and `Nat` without wrap-around.
-/

set_option autoImplicit false
set_option linter.unusedSectionVars false

namespace hearnet_cpp

/-- The constant `MAX_VOICES`, 16 in the source. -/
def MAX_VOICES : Nat := 16

/-- The record `struct voice`. -/
structure voice (α : Type) where
  active : Bool
  attack : α
  attacklength : α
  sinpos : α
  sinfreq : α
  amp : α
  decaylength : α
  age : Int
deriving DecidableEq

section defs

variable {α : Type} [LinearOrderedField α]

/-- One slot after `memset(..., 0, sizeof(voice))`. -/
def zero_voice : voice α :=
  { active := false, attack := 0, attacklength := 0, sinpos := 0, sinfreq := 0,
    amp := 0, decaylength := 0, age := 0 }

/-- Function `init_voices`: `memset(voices,0,sizeof(voices))` on `voice voices[MAX_VOICES]`. -/
def init_voices : List (voice α) := List.replicate MAX_VOICES zero_voice

/-- Function `get_free_voice`: scan the table from index 0 and return the first slot
whose `active` flag is false (its index stands for the pointer), `none` for
the null pointer. -/
def get_free_voice : List (voice α) → Option Nat
  | [] => none
  | v :: vs => if !v.active then some 0 else (get_free_voice vs).map (· + 1)

/-- The voice written by `packet_handler` into the free slot, for the packet
length `len` and the four successive results `r1 r2 r3 r4` of `rand()`. -/
def new_voice (pow : α → α → α) (len r1 r2 r3 r4 : Nat) : voice α :=
  let factor2 : α := ((r1 % 5 + 1 : Nat) : α)
  let factor : α := pow 2 ((len : α) / 256 * 3 / 12) * factor2
  { active := true
    attack := 0
    attacklength := ((r4 % 20 + 1 : Nat) : α) / 1000
    sinpos := 0
    sinfreq := 55 * 2 * (314159 / 100000) * factor + ((r2 % 5 : Nat) : α) * factor
    amp := (1 / 2) / (MAX_VOICES : α)
    decaylength := ((r3 % 100 + 100 : Nat) : α) / 1000
    age := 0 }

/-- Function `packet_handler`: take a free voice, if there is one, and initialise it. -/
def packet_handler (pow : α → α → α) (len r1 r2 r3 r4 : Nat)
    (voices : List (voice α)) : List (voice α) :=
  match get_free_voice voices with
  | none => voices
  | some index => voices.set index (new_voice pow len r1 r2 r3 r4)

/-- The hard clip of `*pout` in `process` (lines 91-98). -/
def clip (x : α) : α :=
  if x > 1 then 1 else if x < -1 then -1 else x

/-- The update of the current voice for one sample in `process` (lines 99-111):
attack ramp or decay, phase advance, retirement test. -/
def advance (srate : Nat) (v : voice α) : voice α :=
  let v1 : voice α :=
    if v.attack < 1 then
      { v with attack := v.attack + 1 / ((srate : α) * v.attacklength) }
    else
      { v with amp := v.amp * (1 - 1 / ((srate : α) * v.decaylength)) }
  let v2 : voice α := { v1 with sinpos := v1.sinpos + v1.sinfreq / (srate : α) }
  if v2.amp < 1 / 1000 then { v2 with active := false } else v2

/-- The sample loop of `process` for one voice (lines 88-113): `pout` walks
over the buffer, the voice is updated after every sample. -/
def render (sin : α → α) (srate : Nat) : voice α → List α → voice α × List α
  | v, [] => (v, [])
  | v, x :: xs =>
    let y := clip (x + sin v.sinpos * v.amp * v.attack)
    let r := render sin srate (advance srate v) xs
    (r.1, y :: r.2)

/-- The voice loop of `process` (lines 82-115): every slot that is active when
the loop reaches it is rendered into the whole buffer. -/
def process_voices (sin : α → α) (srate : Nat) :
    List (voice α) → List α → List (voice α) × List α
  | [], out => ([], out)
  | v :: vs, out =>
    if v.active then
      let r := render sin srate v out
      let rs := process_voices sin srate vs r.2
      (r.1 :: rs.1, rs.2)
    else
      let rs := process_voices sin srate vs out
      (v :: rs.1, rs.2)

/-- Function `process`: clear the buffer of `nframes` samples, then mix every active
voice into it.  Returns the new table and the buffer. -/
def process (sin : α → α) (srate nframes : Nat) (voices : List (voice α)) :
    List (voice α) × List α :=
  process_voices sin srate voices (List.replicate nframes 0)

/-- What happens to the table: a captured packet, or one render pass of
`nframes` frames while the global `srate` holds the given value. -/
inductive event where
  | packet (len r1 r2 r3 r4 : Nat)
  | pass (srate nframes : Nat)
deriving DecidableEq

/-- The table after one event. -/
def step (sin : α → α) (pow : α → α → α) (voices : List (voice α)) : event → List (voice α)
  | .packet len r1 r2 r3 r4 => packet_handler pow len r1 r2 r3 r4 voices
  | .pass srate nframes => (process sin srate nframes voices).1

/-- The table after a sequence of events, starting from `voices`. -/
def run (sin : α → α) (pow : α → α → α) (voices : List (voice α)) (es : List event) :
    List (voice α) :=
  es.foldl (step sin pow) voices

/-- A voice in decay whose `amp` is exactly at the retirement threshold, with a
phase step of 0.01 per sample at 44100 Hz. -/
def retiring_voice : voice α :=
  { active := true, attack := 1, attacklength := 1 / 100, sinpos := 0, sinfreq := 441,
    amp := 1 / 1000, decaylength := 1 / 10, age := 0 }

/-- The term of one voice at the current sample: `sin(sinpos) * amp * attack`
(line 90). -/
def term (sin : α → α) (v : voice α) : α :=
  sin v.sinpos * v.amp * v.attack

/-- The sum named in the headroom claim: over the voices that are active when
`process` starts, the term of each at sample position `s` of the buffer, with no
clip applied. -/
def unclamped_sum (sin : α → α) (srate : Nat) (voices : List (voice α)) (s : Nat) : α :=
  ((voices.filter (fun v => v.active)).map
    (fun v => term sin ((advance srate)^[s] v))).sum

/-- The envelope of a voice is in range: `amp` in [0, 1/32], `attack` in [0, 2],
`attacklength` at least 1 ms and `decaylength` at least 100 ms. -/
def envelope_ok (v : voice α) : Prop :=
  0 ≤ v.amp ∧ v.amp ≤ 1 / 32 ∧ 0 ≤ v.attack ∧ v.attack ≤ 2 ∧
    1 / 1000 ≤ v.attacklength ∧ 1 / 10 ≤ v.decaylength

/-- Every active slot of the table has its envelope in range. -/
def table_ok (voices : List (voice α)) : Prop :=
  ∀ v ∈ voices, v.active = true → envelope_ok v

/-- A slot in use: the cleared slot with its `active` flag set. -/
def busy_voice : voice α :=
  { (zero_voice : voice α) with active := true }

/-- The sample at position `s` of the buffer when every voice that is active at
the start of `process` is rendered at every position: starting from 0, each
such voice adds, in table order, the term of the voice advanced `s` times, and
the sum is clipped after each addition. -/
def mixed_sample (sin : α → α) (srate : Nat) (voices : List (voice α)) (s : Nat) : α :=
  voices.foldl
    (fun acc v => if v.active = true then clip (acc + term sin ((advance srate)^[s] v)) else acc)
    0

/-- Number of active voices in the table. -/
def active_count (voices : List (voice α)) : Nat :=
  voices.countP (fun v => v.active)

end defs

end hearnet_cpp

namespace hearnet_c

/-- The constant `GRAIN_PERIOD`, length of the grain in samples. -/
def GRAIN_PERIOD : Int := 44

/-- The size in bytes of one `jack_default_audio_sample_t` (a `float`). -/
def SAMPLE_SIZE : Int := 4

/-- One call `memcpy(out + k, grain_wavetable, n)` of `process`: `dest` is the
byte offset of the destination from the start of `out`, `n` the byte count. -/
structure memcpy_call where
  dest : Int
  n : Int
deriving DecidableEq

/-- The grain loop of `process` (lines 81-93), from index `i` on, as the list of
the `memcpy` calls it makes; `out` is a `float` pointer, so `out + k` lies
`SAMPLE_SIZE * k` bytes after `out`.  The first argument bounds the number of
rounds. -/
def grain_loop (len play_grain : Int) : Nat → Int → List memcpy_call
  | 0, _ => []
  | fuel + 1, i =>
    if i < play_grain then
      if i * GRAIN_PERIOD > len then []
      else
        let truncate0 : Int := (i + 1) * GRAIN_PERIOD - len
        let truncate : Int := if truncate0 < 0 then 0 else truncate0
        { dest := SAMPLE_SIZE * (i * GRAIN_PERIOD), n := GRAIN_PERIOD - truncate } ::
          grain_loop len play_grain fuel (i + 1)
    else []

/-- Function `process` of the grain version: `len` is the buffer size in bytes,
the loop runs at most `play_grain` rounds. -/
def process (nframes : Nat) (play_grain : Int) : List memcpy_call :=
  grain_loop (SAMPLE_SIZE * (nframes : Int)) play_grain play_grain.toNat 0

end hearnet_c

/-! ## The float arithmetic of the code

The voice fields and the buffer are C `float`s.  Here a `float` is its IEEE 754
binary32 bit pattern, and every operation rounds to nearest, ties to even, with
the infinities and NaN of the standard.  The functions of `hearnet.cpp` are
written a second time over these values: this is what the program computes bit
for bit, where the definitions over a field above leave rounding, overflow and
division by zero out. -/

namespace hearnet_cpp.binary32

/-- A binary32 value, given by its 32-bit pattern: sign, 8 exponent bits,
23 fraction bits. -/
structure f32 where
  bits : Nat
deriving DecidableEq

/-- The sign bit. -/
def sign (x : f32) : Bool := decide (2 ^ 31 ≤ x.bits)

/-- The exponent field. -/
def expo (x : f32) : Nat := x.bits / 2 ^ 23 % 256

/-- The fraction field. -/
def frac (x : f32) : Nat := x.bits % 2 ^ 23

/-- Not a number: exponent field 255 and a fraction that is not zero. -/
def is_nan (x : f32) : Bool := expo x == 255 && frac x != 0

/-- Plus or minus infinity. -/
def is_inf (x : f32) : Bool := expo x == 255 && frac x == 0

/-- Plus or minus zero. -/
def is_zero (x : f32) : Bool := x.bits % 2 ^ 31 == 0

/-- The significand of a finite value as a whole number: the value is
`mant x * 2 ^ (ex x - 150)`, with the sign of `sign x`. -/
def mant (x : f32) : Nat := if expo x = 0 then frac x else 2 ^ 23 + frac x

/-- The exponent of a finite value, 1 for the subnormal numbers. -/
def ex (x : f32) : Nat := if expo x = 0 then 1 else expo x

/-- The value with the given sign, exponent field and fraction field. -/
def pack (s : Bool) (e m : Nat) : f32 := ⟨(if s then 2 ^ 31 else 0) + e * 2 ^ 23 + m⟩

/-- The quiet NaN. -/
def nan : f32 := ⟨0x7FC00000⟩

/-- Infinity with the given sign. -/
def inf (s : Bool) : f32 := pack s 255 0

/-- Zero with the given sign. -/
def zero (s : Bool) : f32 := pack s 0 0

/-- The constant `1.0f`. -/
def one : f32 := ⟨0x3F800000⟩

/-- The constant `0.5`. -/
def half : f32 := ⟨0x3F000000⟩

/-- One step of the search for the highest set bit. -/
def top_bit_step (p : Nat × Nat) (k : Nat) : Nat × Nat :=
  if 2 ^ k ≤ p.1 then (p.1 / 2 ^ k, p.2 + k) else p

/-- The position of the highest set bit of `M` (a binary search below `2 ^ 512`,
which covers every number the operations below produce). -/
def top_bit (M : Nat) : Nat :=
  if 2 ^ 512 ≤ M then Nat.log2 M
  else ([256, 128, 64, 32, 16, 8, 4, 2, 1].foldl top_bit_step (M, 0)).2

/-- Rounding: the binary32 value nearest to `M * 2 ^ (E - 400)` with sign `s`,
ties to the even significand; a result of `2 ^ 128` or more is infinity. -/
def round (s : Bool) (M E : Nat) : f32 :=
  if M = 0 then zero s
  else
    let L := top_bit M
    let e := if E + L < 274 then 1 else E + L - 273
    let m :=
      if e + 250 ≤ E then M * 2 ^ (E - e - 250)
      else
        let sh := e + 250 - E
        let q := M / 2 ^ sh
        let r := M % 2 ^ sh
        let mid := 2 ^ (sh - 1)
        if mid < r ∨ (r = mid ∧ q % 2 = 1) then q + 1 else q
    let e' := if m = 2 ^ 24 then e + 1 else e
    let m' := if m = 2 ^ 24 then 2 ^ 23 else m
    if 255 ≤ e' then inf s
    else if m' < 2 ^ 23 then pack s 0 m'
    else pack s e' (m' - 2 ^ 23)

/-- Unary minus: the sign bit flipped. -/
def neg (x : f32) : f32 := if sign x then ⟨x.bits - 2 ^ 31⟩ else ⟨x.bits + 2 ^ 31⟩

/-- The product `x * y` in binary32. -/
def mul (x y : f32) : f32 :=
  if is_nan x || is_nan y then nan
  else if is_inf x || is_inf y then
    if is_zero x || is_zero y then nan else inf (xor (sign x) (sign y))
  else round (xor (sign x) (sign y)) (mant x * mant y) (ex x + ex y + 100)

/-- The quotient `x / y` in binary32; the last bit of the scaled quotient
records a remainder that is not zero. -/
def div (x y : f32) : f32 :=
  if is_nan x || is_nan y then nan
  else if is_inf x then (if is_inf y then nan else inf (xor (sign x) (sign y)))
  else if is_inf y then zero (xor (sign x) (sign y))
  else if is_zero y then (if is_zero x then nan else inf (xor (sign x) (sign y)))
  else
    let n := mant x * 2 ^ 50
    round (xor (sign x) (sign y)) (2 * (n / mant y) + (if n % mant y = 0 then 0 else 1))
      (ex x + 349 - ex y)

/-- The sum `x + y` in binary32. -/
def add (x y : f32) : f32 :=
  if is_nan x || is_nan y then nan
  else if is_inf x then (if is_inf y && xor (sign x) (sign y) then nan else x)
  else if is_inf y then y
  else
    let e := min (ex x) (ex y)
    let a := mant x * 2 ^ (ex x - e)
    let b := mant y * 2 ^ (ex y - e)
    if sign x = sign y then round (sign x) (a + b) (e + 250)
    else if a = b then zero false
    else if b < a then round (sign x) (a - b) (e + 250)
    else round (sign y) (b - a) (e + 250)

/-- The difference `x - y` in binary32. -/
def sub (x y : f32) : f32 := add x (neg y)

/-- The conversion `(float)n` of an unsigned integer. -/
def of_nat (n : Nat) : f32 := round false n 400

/-- The comparison `x < y` of two floats; false when one of them is NaN. -/
def lt (x y : f32) : Bool :=
  if is_nan x || is_nan y then false
  else
    match sign x, sign y with
    | false, false => decide (x.bits < y.bits)
    | true, true => decide (y.bits < x.bits)
    | true, false => !(is_zero x && is_zero y)
    | false, true => false

/-- The comparison `(double)x < c` with a positive constant `c = num * 2 ^ (-k)`
of type `double`. -/
def lt_dyadic (x : f32) (num k : Nat) : Bool :=
  if is_nan x then false
  else if sign x then true
  else if is_inf x then false
  else decide (mant x * 2 ^ (ex x + k) < num * 2 ^ 150)

/-- The test `amp < 0.001` of line 108: the `double` nearest to 0.001 is
`4611686018427388 * 2 ^ (-62)` (hexadecimal `0x1.0624dd2f1a9fcp-10`). -/
def lt_threshold (x : f32) : Bool := lt_dyadic x 4611686018427388 62

/-- The increment `1.0f / ((float)srate * attacklength)` of line 101. -/
def attack_inc (srate : Nat) (attacklength : f32) : f32 :=
  div one (mul (of_nat srate) attacklength)

/-- The factor `1.0f - (1.0f / ((float)srate * decaylength))` of line 105. -/
def decay_factor (srate : Nat) (decaylength : f32) : f32 :=
  sub one (div one (mul (of_nat srate) decaylength))

/-- The update of the current voice for one sample in `process` (lines 99-111),
in binary32. -/
def advance (srate : Nat) (v : voice f32) : voice f32 :=
  let v1 : voice f32 :=
    if lt v.attack one then
      { v with attack := add v.attack (attack_inc srate v.attacklength) }
    else
      { v with amp := mul v.amp (decay_factor srate v.decaylength) }
  let v2 : voice f32 := { v1 with sinpos := add v1.sinpos (div v1.sinfreq (of_nat srate)) }
  if lt_threshold v2.amp then { v2 with active := false } else v2

/-- The hard clip of `*pout` in `process` (lines 91-98), in binary32. -/
def clip (x : f32) : f32 :=
  if lt one x then one else if lt x (neg one) then neg one else x

/-- The sample loop of `process` for one voice (lines 88-113), in binary32;
`sin` is the library function as the code calls it on a `float`. -/
def render (sin : f32 → f32) (srate : Nat) : voice f32 → List f32 → voice f32 × List f32
  | v, [] => (v, [])
  | v, x :: xs =>
    let y := clip (add x (mul (mul (sin v.sinpos) v.amp) v.attack))
    let r := render sin srate (advance srate v) xs
    (r.1, y :: r.2)

/-- The voice loop of `process` (lines 82-115), in binary32. -/
def process_voices (sin : f32 → f32) (srate : Nat) :
    List (voice f32) → List f32 → List (voice f32) × List f32
  | [], out => ([], out)
  | v :: vs, out =>
    if v.active then
      let r := render sin srate v out
      let rs := process_voices sin srate vs r.2
      (r.1 :: rs.1, rs.2)
    else
      let rs := process_voices sin srate vs out
      (v :: rs.1, rs.2)

/-- Function `process` in binary32: the buffer is cleared to `+0.0` and every
active voice is mixed into it. -/
def process (sin : f32 → f32) (srate nframes : Nat) (voices : List (voice f32)) :
    List (voice f32) × List f32 :=
  process_voices sin srate voices (List.replicate nframes (zero false))

/-- One slot after `memset(..., 0, sizeof(voice))`: all bits zero. -/
def zero_voice : voice f32 :=
  { active := false, attack := zero false, attacklength := zero false, sinpos := zero false,
    sinfreq := zero false, amp := zero false, decaylength := zero false, age := 0 }

/-- A slot in use whose fields are all zero: the cleared slot with its `active`
flag set. -/
def busy_voice : voice f32 :=
  { zero_voice with active := true }

/-- The voice written by `packet_handler` (lines 146-156) in binary32, for the
results `r3` and `r4` of the last two calls of `rand()`; the value that lines
148-151 compute for `sinfreq` with `pow` is taken as given. -/
def new_voice (sinfreq : f32) (r3 r4 : Nat) : voice f32 :=
  { active := true
    attack := zero false
    attacklength := div (of_nat (r4 % 20 + 1)) (of_nat 1000)
    sinpos := zero false
    sinfreq := sinfreq
    amp := div half (of_nat MAX_VOICES)
    decaylength := div (of_nat (r3 % 100 + 100)) (of_nat 1000)
    age := 0 }

/-- Evaluation order: `n` is computed before `k` is applied to it. -/
def force {β : Type} (n : Nat) (k : Nat → β) : β :=
  match n with
  | 0 => k 0
  | m + 1 => k (m + 1)

/-- The decay of line 105 on the `amp` field alone. -/
def decay_step (f a : f32) : f32 := mul a f

/-- The value of `amp` after `k` samples of decay. -/
def decay (f : f32) : Nat → f32 → f32
  | 0, a => a
  | k + 1, a => force (decay_step f a).bits (fun b => decay f k ⟨b⟩)

end hearnet_cpp.binary32

namespace hearnet_cpp

/-! ## Lemmas on the voice table -/

section table

variable {α : Type} [LinearOrderedField α]

theorem get_free_voice_eq_none {voices : List (voice α)} :
    get_free_voice voices = none ↔ ∀ v ∈ voices, v.active = true := by
  induction voices with
  | nil => simp [get_free_voice]
  | cons v vs ih =>
    cases hv : v.active <;> simp [get_free_voice, hv, ih]

theorem get_free_voice_spec {voices : List (voice α)} {i : Nat}
    (h : get_free_voice voices = some i) :
    (∃ v, voices[i]? = some v ∧ v.active = false) ∧
      ∀ j w, j < i → voices[j]? = some w → w.active = true := by
  induction voices generalizing i with
  | nil => simp [get_free_voice] at h
  | cons v vs ih =>
    cases hv : v.active with
    | false =>
      simp [get_free_voice, hv] at h
      subst h
      exact ⟨⟨v, by simp, hv⟩, fun j w hj => absurd hj (Nat.not_lt_zero j)⟩
    | true =>
      simp [get_free_voice, hv] at h
      obtain ⟨k, hk, rfl⟩ := h
      obtain ⟨⟨u, hu, hua⟩, hlow⟩ := ih hk
      refine ⟨⟨u, by simpa using hu, hua⟩, ?_⟩
      intro j w hj hw
      cases j with
      | zero =>
        simp at hw
        rw [← hw]
        exact hv
      | succ j =>
        simp at hw
        exact hlow j w (by omega) hw

theorem get_free_voice_isSome {voices : List (voice α)}
    (h : ∃ v ∈ voices, v.active = false) : ∃ i, get_free_voice voices = some i := by
  cases hg : get_free_voice voices with
  | some i => exact ⟨i, rfl⟩
  | none =>
    obtain ⟨v, hv, hva⟩ := h
    have := get_free_voice_eq_none.mp hg v hv
    simp [hva] at this

theorem packet_handler_length (pow : α → α → α) (len r1 r2 r3 r4 : Nat)
    (voices : List (voice α)) :
    (packet_handler pow len r1 r2 r3 r4 voices).length = voices.length := by
  unfold packet_handler
  cases get_free_voice voices <;> simp

theorem packet_handler_keeps_active (pow : α → α → α) (len r1 r2 r3 r4 : Nat)
    (voices : List (voice α)) (i : Nat) (v : voice α)
    (hv : voices[i]? = some v) (ha : v.active = true) :
    (packet_handler pow len r1 r2 r3 r4 voices)[i]? = some v := by
  unfold packet_handler
  cases hg : get_free_voice voices with
  | none => simpa using hv
  | some k =>
    obtain ⟨⟨u, hu, hua⟩, _⟩ := get_free_voice_spec hg
    have hne : k ≠ i := by
      rintro rfl
      rw [hv] at hu
      cases hu
      simp [ha] at hua
    simp [List.getElem?_set, hne, hv]

theorem active_count_set {voices : List (voice α)} {i : Nat} {u w : voice α}
    (hu : voices[i]? = some u) (hua : u.active = false) (hwa : w.active = true) :
    active_count (voices.set i w) = active_count voices + 1 := by
  induction voices generalizing i with
  | nil => simp at hu
  | cons v vs ih =>
    cases i with
    | zero =>
      simp at hu
      subst hu
      simp [active_count, List.countP_cons, hua, hwa]
    | succ i =>
      simp at hu
      have := ih hu
      simp only [active_count] at this
      simp [active_count, List.countP_cons, this]
      omega

theorem render_length (sin : α → α) (srate : Nat) (v : voice α) (out : List α) :
    (render sin srate v out).2.length = out.length := by
  induction out generalizing v with
  | nil => simp [render]
  | cons x xs ih => simp [render, ih]

theorem process_voices_length (sin : α → α) (srate : Nat) (voices : List (voice α))
    (out : List α) :
    (process_voices sin srate voices out).1.length = voices.length ∧
      (process_voices sin srate voices out).2.length = out.length := by
  induction voices generalizing out with
  | nil => simp [process_voices]
  | cons v vs ih =>
    cases hv : v.active
    · simp [process_voices, hv, ih]
    · simp [process_voices, hv, ih, render_length]

theorem step_length (sin : α → α) (pow : α → α → α) (voices : List (voice α)) (e : event) :
    (step sin pow voices e).length = voices.length := by
  cases e with
  | packet len r1 r2 r3 r4 => exact packet_handler_length pow len r1 r2 r3 r4 voices
  | pass srate nframes => exact (process_voices_length sin srate voices _).1

theorem run_length (sin : α → α) (pow : α → α → α) (voices : List (voice α))
    (es : List event) : (run sin pow voices es).length = voices.length := by
  induction es generalizing voices with
  | nil => rfl
  | cons e es ih =>
    show (run sin pow (step sin pow voices e) es).length = _
    rw [ih, step_length]

theorem clip_mem (x : α) : -1 ≤ clip x ∧ clip x ≤ 1 := by
  unfold clip
  split_ifs with h1 h2
  · constructor <;> norm_num
  · constructor <;> norm_num
  · exact ⟨not_lt.mp h2, not_lt.mp h1⟩

theorem render_mem (sin : α → α) (srate : Nat) (v : voice α) (out : List α) :
    ∀ y ∈ (render sin srate v out).2, -1 ≤ y ∧ y ≤ 1 := by
  induction out generalizing v with
  | nil => simp [render]
  | cons x xs ih =>
    intro y hy
    simp only [render, List.mem_cons] at hy
    rcases hy with rfl | hy
    · exact clip_mem _
    · exact ih _ y hy

theorem process_voices_mem (sin : α → α) (srate : Nat) (voices : List (voice α))
    (out : List α) (h : ∀ y ∈ out, -1 ≤ y ∧ y ≤ (1 : α)) :
    ∀ y ∈ (process_voices sin srate voices out).2, -1 ≤ y ∧ y ≤ 1 := by
  induction voices generalizing out with
  | nil => simpa [process_voices] using h
  | cons v vs ih =>
    cases hv : v.active
    · simpa [process_voices, hv] using ih out h
    · simpa [process_voices, hv] using ih _ (render_mem sin srate v out)

theorem clip_pos {y : α} (h : 0 < y) : 0 < clip y := by
  unfold clip
  split_ifs <;> linarith

/-- Slots that are inactive when the voice loop reaches them leave the buffer
as it is. -/
theorem process_voices_snd_of_inactive (sin : α → α) (srate : Nat) (voices : List (voice α))
    (out : List α) (h : ∀ v ∈ voices, v.active = false) :
    (process_voices sin srate voices out).2 = out := by
  induction voices with
  | nil => rfl
  | cons v vs ih =>
    have hv : v.active = false := h v (List.mem_cons_self v vs)
    simp [process_voices, hv, ih (fun w hw => h w (List.mem_cons_of_mem v hw))]

end table

/-! ## Lemmas on the envelope of one voice -/

section envelope

variable {α : Type} [LinearOrderedField α]

@[simp] theorem advance_attacklength (srate : Nat) (v : voice α) :
    (advance srate v).attacklength = v.attacklength := by
  unfold advance
  dsimp only
  split_ifs <;> rfl

@[simp] theorem advance_decaylength (srate : Nat) (v : voice α) :
    (advance srate v).decaylength = v.decaylength := by
  unfold advance
  dsimp only
  split_ifs <;> rfl

@[simp] theorem advance_sinfreq (srate : Nat) (v : voice α) :
    (advance srate v).sinfreq = v.sinfreq := by
  unfold advance
  dsimp only
  split_ifs <;> rfl

theorem advance_sinpos (srate : Nat) (v : voice α) :
    (advance srate v).sinpos = v.sinpos + v.sinfreq / (srate : α) := by
  unfold advance
  dsimp only
  split_ifs <;> rfl

theorem advance_attack (srate : Nat) (v : voice α) :
    (advance srate v).attack =
      if v.attack < 1 then v.attack + 1 / ((srate : α) * v.attacklength) else v.attack := by
  unfold advance
  dsimp only
  split_ifs <;> rfl

theorem advance_amp (srate : Nat) (v : voice α) :
    (advance srate v).amp =
      if v.attack < 1 then v.amp else v.amp * (1 - 1 / ((srate : α) * v.decaylength)) := by
  unfold advance
  dsimp only
  split_ifs <;> rfl

theorem advance_active (srate : Nat) (v : voice α) :
    (advance srate v).active =
      if (advance srate v).amp < 1 / 1000 then false else v.active := by
  unfold advance
  dsimp only
  split_ifs <;> simp_all

@[simp] theorem iterate_advance_attacklength (srate k : Nat) (v : voice α) :
    ((advance srate)^[k] v).attacklength = v.attacklength := by
  induction k with
  | zero => rfl
  | succ k ih => rw [Function.iterate_succ_apply', advance_attacklength, ih]

@[simp] theorem iterate_advance_decaylength (srate k : Nat) (v : voice α) :
    ((advance srate)^[k] v).decaylength = v.decaylength := by
  induction k with
  | zero => rfl
  | succ k ih => rw [Function.iterate_succ_apply', advance_decaylength, ih]

@[simp] theorem iterate_advance_sinfreq (srate k : Nat) (v : voice α) :
    ((advance srate)^[k] v).sinfreq = v.sinfreq := by
  induction k with
  | zero => rfl
  | succ k ih => rw [Function.iterate_succ_apply', advance_sinfreq, ih]

theorem iterate_advance_sinpos (srate k : Nat) (v : voice α) :
    ((advance srate)^[k] v).sinpos = v.sinpos + k * (v.sinfreq / (srate : α)) := by
  induction k with
  | zero => simp
  | succ k ih =>
    rw [Function.iterate_succ_apply', advance_sinpos, ih, iterate_advance_sinfreq]
    push_cast
    ring

/-- The voice that leaves the sample loop is the voice advanced once per
sample of the buffer. -/
theorem render_fst (sin : α → α) (srate : Nat) (v : voice α) (out : List α) :
    (render sin srate v out).1 = (advance srate)^[out.length] v := by
  induction out generalizing v with
  | nil => rfl
  | cons x xs ih => simp [render, ih]

/-- Sample `s` of the buffer after the sample loop: the clipped sum of the old
sample and of what the voice, advanced `s` times, adds. -/
theorem render_getElem? (sin : α → α) (srate : Nat) (v : voice α) (out : List α) (s : Nat) :
    (render sin srate v out).2[s]? =
      out[s]?.map (fun x => clip (x + sin ((advance srate)^[s] v).sinpos *
        ((advance srate)^[s] v).amp * ((advance srate)^[s] v).attack)) := by
  induction out generalizing v s with
  | nil => simp [render]
  | cons x xs ih =>
    cases s with
    | zero => simp [render]
    | succ s => simp [render, ih]

/-- The table after the voice loop: the slots that were active have been
advanced once per sample of the buffer, the others are as before. -/
theorem process_voices_fst (sin : α → α) (srate : Nat) (voices : List (voice α))
    (out : List α) :
    (process_voices sin srate voices out).1 =
      voices.map (fun v => if v.active = true then (advance srate)^[out.length] v else v) := by
  induction voices generalizing out with
  | nil => simp [process_voices]
  | cons v vs ih =>
    cases hv : v.active
    · simp [process_voices, hv, ih]
    · simp [process_voices, hv, ih, render_fst, render_length]

theorem process_fst (sin : α → α) (srate nframes : Nat) (voices : List (voice α)) :
    (process sin srate nframes voices).1 =
      voices.map (fun v => if v.active = true then (advance srate)^[nframes] v else v) := by
  unfold process
  rw [process_voices_fst]
  simp

/-- A slot that only sees render passes at one sample rate holds its voice
advanced some number of times. -/
theorem run_passes_getElem? (sin : α → α) (pow : α → α → α) (srate : Nat)
    (ns : List Nat) (voices : List (voice α)) (i : Nat) (v : voice α)
    (hv : voices[i]? = some v) :
    ∃ k, (run sin pow voices (ns.map (event.pass srate)))[i]? =
      some ((advance srate)^[k] v) := by
  induction ns generalizing voices v with
  | nil => exact ⟨0, by simpa [run] using hv⟩
  | cons n ns ih =>
    have hstep : (step sin pow voices (event.pass srate n))[i]? =
        some (if v.active = true then (advance srate)^[n] v else v) := by
      simp [step, process_fst, hv]
    obtain ⟨k, hk⟩ := ih _ _ hstep
    by_cases ha : v.active = true
    · refine ⟨k + n, ?_⟩
      rw [Function.iterate_add_apply]
      simpa [run, ha] using hk
    · refine ⟨k, ?_⟩
      simpa [run, ha] using hk

/-- While it is positive, the increment of the attack ramp makes `attack`
grow; otherwise `attack` stays. -/
theorem advance_attack_ge (srate : Nat) (v : voice α)
    (h : 0 < (srate : α) * v.attacklength) : v.attack ≤ (advance srate v).attack := by
  rw [advance_attack]
  split_ifs
  · have : 0 < 1 / ((srate : α) * v.attacklength) := one_div_pos.mpr h
    linarith
  · exact le_refl _

theorem iterate_advance_active_amp (srate k : Nat) (v : voice α)
    (h0 : 1 / 1000 ≤ v.amp) (ha : ((advance srate)^[k] v).active = true) :
    1 / 1000 ≤ ((advance srate)^[k] v).amp := by
  cases k with
  | zero => simpa using h0
  | succ k =>
    rw [Function.iterate_succ_apply'] at ha ⊢
    rw [advance_active] at ha
    split_ifs at ha with hlt
    exact not_lt.mp hlt

/-- With a decay factor in [0, 1] a non-negative `amp` stays non-negative. -/
theorem iterate_advance_amp_nonneg (srate k : Nat) (v : voice α)
    (h0 : 0 ≤ v.amp) (hd : 1 ≤ (srate : α) * v.decaylength) :
    0 ≤ ((advance srate)^[k] v).amp := by
  induction k with
  | zero => simpa using h0
  | succ k ih =>
    rw [Function.iterate_succ_apply', advance_amp, iterate_advance_decaylength]
    split_ifs
    · exact ih
    · have : 1 / ((srate : α) * v.decaylength) ≤ 1 := by
        rw [div_le_iff₀ (by linarith)]
        linarith
      exact mul_nonneg ih (by linarith)

/-- One step of decay does not raise a non-negative `amp` when the product
`srate * decaylength` is positive. -/
theorem advance_amp_le (srate : Nat) (v : voice α) (h0 : 0 ≤ v.amp)
    (hd : 0 < (srate : α) * v.decaylength) : (advance srate v).amp ≤ v.amp := by
  rw [advance_amp]
  split_ifs
  · exact le_refl _
  · have : 0 < 1 / ((srate : α) * v.decaylength) := one_div_pos.mpr hd
    nlinarith

theorem new_voice_attacklength_pos (pow : α → α → α) (len r1 r2 r3 r4 : Nat) :
    1 / 1000 ≤ (new_voice pow len r1 r2 r3 r4).attacklength := by
  show (1 : α) / 1000 ≤ ((r4 % 20 + 1 : Nat) : α) / 1000
  have : (1 : α) ≤ ((r4 % 20 + 1 : Nat) : α) := by
    exact_mod_cast Nat.le_add_left 1 (r4 % 20)
  linarith

theorem new_voice_decaylength_ge (pow : α → α → α) (len r1 r2 r3 r4 : Nat) :
    1 / 10 ≤ (new_voice pow len r1 r2 r3 r4).decaylength := by
  show (1 : α) / 10 ≤ ((r3 % 100 + 100 : Nat) : α) / 1000
  have : (100 : α) ≤ ((r3 % 100 + 100 : Nat) : α) := by
    exact_mod_cast Nat.le_add_left 100 (r3 % 100)
  linarith

theorem new_voice_amp (pow : α → α → α) (len r1 r2 r3 r4 : Nat) :
    (new_voice pow len r1 r2 r3 r4).amp = 1 / 32 := by
  show (1 / 2 : α) / (MAX_VOICES : α) = 1 / 32
  simp only [MAX_VOICES]
  norm_num

/-- The attack ramp from 0: after `k` samples `attack` is `min k N` increments,
where `N` is `srate * attacklength` rounded up. -/
theorem iterate_advance_attack [FloorRing α] (srate : Nat) (v : voice α)
    (h0 : v.attack = 0) (h : 0 < (srate : α) * v.attacklength) (k : Nat) :
    ((advance srate)^[k] v).attack =
      ((min k ⌈(srate : α) * v.attacklength⌉₊ : Nat) : α) / ((srate : α) * v.attacklength) := by
  induction k with
  | zero => simp [h0]
  | succ k ih =>
    rw [Function.iterate_succ_apply', advance_attack, iterate_advance_attacklength, ih]
    by_cases hk : k < ⌈(srate : α) * v.attacklength⌉₊
    · have hk1 : (k : α) < (srate : α) * v.attacklength := Nat.lt_ceil.mp hk
      rw [min_eq_left hk.le, min_eq_left (Nat.succ_le_of_lt hk)]
      rw [if_pos ((div_lt_one h).mpr hk1)]
      push_cast
      ring
    · have hk' : ⌈(srate : α) * v.attacklength⌉₊ ≤ k := not_lt.mp hk
      rw [min_eq_right hk', min_eq_right (Nat.le_succ_of_le hk')]
      rw [if_neg (not_lt.mpr ((one_le_div h).mpr (Nat.le_ceil _)))]

/-- Once `attack` is at least 1 it is not touched again. -/
theorem iterate_advance_attack_of_one_le (srate k : Nat) (v : voice α)
    (h : 1 ≤ v.attack) : ((advance srate)^[k] v).attack = v.attack := by
  induction k with
  | zero => rfl
  | succ k ih =>
    rw [Function.iterate_succ_apply', advance_attack, ih, if_neg (not_lt.mpr h)]

/-- In decay `amp` is multiplied by the decay factor at every sample. -/
theorem iterate_advance_amp_of_one_le (srate k : Nat) (v : voice α)
    (h : 1 ≤ v.attack) :
    ((advance srate)^[k] v).amp =
      v.amp * (1 - 1 / ((srate : α) * v.decaylength)) ^ k := by
  induction k with
  | zero => simp
  | succ k ih =>
    rw [Function.iterate_succ_apply', advance_amp, iterate_advance_attack_of_one_le srate k v h,
      if_neg (not_lt.mpr h), ih, iterate_advance_decaylength, pow_succ, mul_assoc]

/-- An active voice whose `amp` never rises is still active after `k` samples
exactly when its `amp` is not yet under the threshold. -/
theorem iterate_advance_active_iff (srate : Nat) (v : voice α) (hact : v.active = true)
    (h0 : 1 / 1000 ≤ v.amp)
    (hmono : ∀ k, ((advance srate)^[k + 1] v).amp ≤ ((advance srate)^[k] v).amp) (k : Nat) :
    ((advance srate)^[k] v).active = true ↔ 1 / 1000 ≤ ((advance srate)^[k] v).amp := by
  induction k with
  | zero => simpa [hact] using h0
  | succ k ih =>
    constructor
    · exact iterate_advance_active_amp srate (k + 1) v h0
    · intro hge
      have hk : ((advance srate)^[k] v).active = true := ih.mpr (le_trans hge (hmono k))
      rw [Function.iterate_succ_apply'] at hge ⊢
      rw [advance_active, if_neg (not_lt.mpr hge)]
      exact hk

/-- A table whose first slot is active and whose other slots are inactive:
`process` renders the first voice into the cleared buffer and nothing else. -/
theorem process_single (sin : α → α) (srate nframes : Nat) (v : voice α)
    (rest : List (voice α)) (hv : v.active = true) (hrest : ∀ w ∈ rest, w.active = false) :
    (process sin srate nframes (v :: rest)).2 =
      (render sin srate v (List.replicate nframes 0)).2 := by
  simp only [process, process_voices, hv, if_true]
  exact process_voices_snd_of_inactive sin srate rest _ hrest

theorem render_replicate_getElem? (sin : α → α) (srate nframes s : Nat) (v : voice α)
    (hs : s < nframes) :
    (render sin srate v (List.replicate nframes 0)).2[s]? =
      some (clip (sin ((advance srate)^[s] v).sinpos *
        ((advance srate)^[s] v).amp * ((advance srate)^[s] v).attack)) := by
  rw [render_getElem?]
  simp [List.getElem?_replicate, hs]

theorem zero_voice_inactive (n : Nat) :
    ∀ w ∈ List.replicate n (zero_voice : voice α), w.active = false := by
  intro w hw
  rw [List.eq_of_mem_replicate hw]
  rfl

/-- Sample `s` of the buffer after the voice loop: every voice that is active
when the loop reaches it has added its term, clipped, to the old sample. -/
theorem process_voices_snd_getElem? (sin : α → α) (srate : Nat) (voices : List (voice α))
    (out : List α) (s : Nat) :
    (process_voices sin srate voices out).2[s]? =
      out[s]?.map (fun x => voices.foldl
        (fun acc v =>
          if v.active = true then clip (acc + term sin ((advance srate)^[s] v)) else acc) x) := by
  induction voices generalizing out with
  | nil => simp [process_voices]
  | cons v vs ih =>
    cases hv : v.active
    · simp [process_voices, hv, ih]
    · simp only [process_voices, hv, if_true, ih, render_getElem?, Option.map_map,
        List.foldl_cons]
      rfl

end envelope

/-! ## Lemmas on the headroom of the mix -/

section headroom

variable {α : Type} [LinearOrderedField α]

theorem clip_eq_self {y : α} (h1 : -1 ≤ y) (h2 : y ≤ 1) : clip y = y := by
  unfold clip
  rw [if_neg (not_lt.mpr h2), if_neg (not_lt.mpr h1)]

theorem new_voice_envelope_ok (pow : α → α → α) (len r1 r2 r3 r4 : Nat) :
    envelope_ok (new_voice pow len r1 r2 r3 r4) := by
  refine ⟨?_, ?_, ?_, ?_, new_voice_attacklength_pos pow len r1 r2 r3 r4,
    new_voice_decaylength_ge pow len r1 r2 r3 r4⟩
  · rw [new_voice_amp]
    norm_num
  · rw [new_voice_amp]
  · exact le_refl _
  · show (0 : α) ≤ 2
    norm_num

theorem advance_envelope_ok (srate : Nat) (hs : 1000 ≤ srate) (v : voice α)
    (h : envelope_ok v) : envelope_ok (advance srate v) := by
  obtain ⟨h1, h2, h3, h4, h5, h6⟩ := h
  have hsα : (1000 : α) ≤ (srate : α) := by exact_mod_cast hs
  have ha : 1 ≤ (srate : α) * v.attacklength := by nlinarith
  have hd : 1 ≤ (srate : α) * v.decaylength := by nlinarith
  have hinc0 : 0 < 1 / ((srate : α) * v.attacklength) := one_div_pos.mpr (by linarith)
  have hinc1 : 1 / ((srate : α) * v.attacklength) ≤ 1 := by
    rw [div_le_iff₀ (by linarith)]
    linarith
  have hdec0 : 0 < 1 / ((srate : α) * v.decaylength) := one_div_pos.mpr (by linarith)
  have hdec1 : 1 / ((srate : α) * v.decaylength) ≤ 1 := by
    rw [div_le_iff₀ (by linarith)]
    linarith
  refine ⟨?_, ?_, ?_, ?_, ?_, ?_⟩
  · rw [advance_amp]
    split_ifs
    · exact h1
    · exact mul_nonneg h1 (by linarith)
  · rw [advance_amp]
    split_ifs
    · exact h2
    · nlinarith
  · rw [advance_attack]
    split_ifs <;> linarith
  · rw [advance_attack]
    split_ifs <;> linarith
  · rw [advance_attacklength]
    exact h5
  · rw [advance_decaylength]
    exact h6

theorem iterate_advance_envelope_ok (srate : Nat) (hs : 1000 ≤ srate) (k : Nat)
    (v : voice α) (h : envelope_ok v) : envelope_ok ((advance srate)^[k] v) := by
  induction k with
  | zero => exact h
  | succ k ih =>
    rw [Function.iterate_succ_apply']
    exact advance_envelope_ok srate hs _ ih

/-- A voice with its envelope in range adds at most 1/16 in absolute value. -/
theorem abs_term_le (sin : α → α) (hsin : ∀ x, -1 ≤ sin x ∧ sin x ≤ 1) (v : voice α)
    (h : envelope_ok v) : |term sin v| ≤ 1 / 16 := by
  obtain ⟨h1, h2, h3, h4, _, _⟩ := h
  unfold term
  rw [abs_mul, abs_mul, abs_of_nonneg h1, abs_of_nonneg h3]
  have hs : |sin v.sinpos| ≤ 1 := abs_le.mpr (hsin _)
  have hs0 : 0 ≤ |sin v.sinpos| := abs_nonneg _
  have hprod : v.amp * v.attack ≤ 1 / 32 * 2 := mul_le_mul h2 h4 h3 (by norm_num)
  have : |sin v.sinpos| * (v.amp * v.attack) ≤ 1 * (1 / 32 * 2) :=
    mul_le_mul hs hprod (mul_nonneg h1 h3) (by norm_num)
  calc |sin v.sinpos| * v.amp * v.attack = |sin v.sinpos| * (v.amp * v.attack) := by ring
    _ ≤ 1 * (1 / 32 * 2) := this
    _ = 1 / 16 := by norm_num

theorem unclamped_sum_nil (sin : α → α) (srate s : Nat) :
    unclamped_sum sin srate ([] : List (voice α)) s = 0 := by
  simp [unclamped_sum]

theorem unclamped_sum_cons_inactive (sin : α → α) (srate s : Nat) (v : voice α)
    (vs : List (voice α)) (hv : v.active = false) :
    unclamped_sum sin srate (v :: vs) s = unclamped_sum sin srate vs s := by
  simp [unclamped_sum, hv]

theorem unclamped_sum_cons_active (sin : α → α) (srate s : Nat) (v : voice α)
    (vs : List (voice α)) (hv : v.active = true) :
    unclamped_sum sin srate (v :: vs) s =
      term sin ((advance srate)^[s] v) + unclamped_sum sin srate vs s := by
  simp [unclamped_sum, hv]

theorem abs_unclamped_sum_le (sin : α → α) (hsin : ∀ x, -1 ≤ sin x ∧ sin x ≤ 1)
    (srate : Nat) (hs : 1000 ≤ srate) (voices : List (voice α)) (hok : table_ok voices)
    (s : Nat) : |unclamped_sum sin srate voices s| ≤ (voices.length : α) / 16 := by
  induction voices with
  | nil => simp [unclamped_sum_nil]
  | cons v vs ih =>
    have hvs : table_ok vs := fun w hw => hok w (List.mem_cons_of_mem v hw)
    have ih' := ih hvs
    cases hv : v.active with
    | false =>
      rw [unclamped_sum_cons_inactive sin srate s v vs hv]
      simp only [List.length_cons]
      push_cast
      linarith
    | true =>
      rw [unclamped_sum_cons_active sin srate s v vs hv]
      have hterm := abs_term_le sin hsin _
        (iterate_advance_envelope_ok srate hs s v (hok v (List.mem_cons_self v vs) hv))
      simp only [List.length_cons]
      push_cast
      have := abs_add (term sin ((advance srate)^[s] v)) (unclamped_sum sin srate vs s)
      linarith

/-- When the samples already in the buffer are within `B` and `B` plus 1/16 per
slot does not pass 1, the voice loop adds the unclamped sum to every sample: no
clip takes effect. -/
theorem process_voices_unclamped (sin : α → α) (hsin : ∀ x, -1 ≤ sin x ∧ sin x ≤ 1)
    (srate : Nat) (hs : 1000 ≤ srate) (voices : List (voice α)) (hok : table_ok voices)
    (out : List α) (B : α) (hout : ∀ x ∈ out, |x| ≤ B)
    (hB : B + (voices.length : α) / 16 ≤ 1) (s : Nat) (x : α) (hx : out[s]? = some x) :
    (process_voices sin srate voices out).2[s]? =
      some (x + unclamped_sum sin srate voices s) := by
  induction voices generalizing out B x with
  | nil => simpa [process_voices, unclamped_sum_nil] using hx
  | cons v vs ih =>
    have hvs : table_ok vs := fun w hw => hok w (List.mem_cons_of_mem v hw)
    simp only [List.length_cons] at hB
    push_cast at hB
    have hlen0 : (0 : α) ≤ (vs.length : α) := Nat.cast_nonneg _
    cases hv : v.active with
    | false =>
      rw [unclamped_sum_cons_inactive sin srate s v vs hv]
      simp only [process_voices, hv]
      exact ih hvs out B hout (by linarith) x hx
    | true =>
      rw [unclamped_sum_cons_active sin srate s v vs hv]
      simp only [process_voices, hv, if_true]
      have hterm : ∀ j, |term sin ((advance srate)^[j] v)| ≤ 1 / 16 := fun j =>
        abs_term_le sin hsin _
          (iterate_advance_envelope_ok srate hs j v (hok v (List.mem_cons_self v vs) hv))
      have hrender : ∀ j y, out[j]? = some y →
          (render sin srate v out).2[j]? = some (y + term sin ((advance srate)^[j] v)) ∧
            |y + term sin ((advance srate)^[j] v)| ≤ B + 1 / 16 := by
        intro j y hy
        have hyB : |y| ≤ B := hout y (List.getElem?_mem hy)
        have habs : |y + term sin ((advance srate)^[j] v)| ≤ B + 1 / 16 :=
          le_trans (abs_add _ _) (add_le_add hyB (hterm j))
        have hle : |y + term sin ((advance srate)^[j] v)| ≤ 1 := by linarith
        refine ⟨?_, habs⟩
        rw [render_getElem?, hy]
        simp only [Option.map_some']
        have := clip_eq_self (abs_le.mp hle).1 (abs_le.mp hle).2
        simpa [term] using this
      have hout' : ∀ y ∈ (render sin srate v out).2, |y| ≤ B + 1 / 16 := by
        intro y hy
        obtain ⟨j, hj⟩ := List.mem_iff_getElem?.mp hy
        have hjlt : j < out.length := by
          by_contra hcon
          have hlen := render_length sin srate v out
          rw [List.getElem?_eq_none (by omega)] at hj
          cases hj
        obtain ⟨z, hz⟩ : ∃ z, out[j]? = some z := ⟨out[j], List.getElem?_eq_getElem hjlt⟩
        obtain ⟨h1, h2⟩ := hrender j z hz
        rw [h1] at hj
        cases hj
        exact h2
      rw [ih hvs (render sin srate v out).2 (B + 1 / 16) hout' (by linarith) _
        (hrender s x hx).1]
      rw [add_assoc]

theorem table_ok_init : table_ok (init_voices : List (voice α)) := by
  intro v hv hact
  rw [zero_voice_inactive MAX_VOICES v hv] at hact
  cases hact

theorem table_ok_packet_handler (pow : α → α → α) (len r1 r2 r3 r4 : Nat)
    (voices : List (voice α)) (h : table_ok voices) :
    table_ok (packet_handler pow len r1 r2 r3 r4 voices) := by
  unfold packet_handler
  cases get_free_voice voices with
  | none => exact h
  | some i =>
    intro v hv hact
    rcases List.mem_or_eq_of_mem_set hv with hmem | rfl
    · exact h v hmem hact
    · exact new_voice_envelope_ok pow len r1 r2 r3 r4

theorem table_ok_process (sin : α → α) (srate nframes : Nat) (hs : 1000 ≤ srate)
    (voices : List (voice α)) (h : table_ok voices) :
    table_ok (process sin srate nframes voices).1 := by
  rw [process_fst]
  intro w hw hact
  obtain ⟨v, hv, rfl⟩ := List.mem_map.mp hw
  by_cases hva : v.active = true
  · rw [if_pos hva]
    exact iterate_advance_envelope_ok srate hs nframes v (h v hv hva)
  · rw [if_neg hva] at hact
    exact absurd hact hva

theorem table_ok_run (sin : α → α) (pow : α → α → α) (es : List event)
    (hes : ∀ sr n, event.pass sr n ∈ es → 1000 ≤ sr) (voices : List (voice α))
    (h : table_ok voices) : table_ok (run sin pow voices es) := by
  induction es generalizing voices with
  | nil => exact h
  | cons e es ih =>
    show table_ok (run sin pow (step sin pow voices e) es)
    apply ih (fun sr n hmem => hes sr n (List.mem_cons_of_mem e hmem))
    cases e with
    | packet len r1 r2 r3 r4 => exact table_ok_packet_handler pow len r1 r2 r3 r4 voices h
    | pass sr n =>
      exact table_ok_process sin sr n (hes sr n (List.mem_cons_self _ es)) voices h

/-- The first packet after `init_voices` takes slot 0. -/
theorem packet_handler_init (pow : α → α → α) (len r1 r2 r3 r4 : Nat) :
    packet_handler pow len r1 r2 r3 r4 (init_voices : List (voice α)) =
      new_voice pow len r1 r2 r3 r4 :: List.replicate 15 zero_voice := by
  simp [packet_handler, init_voices, MAX_VOICES, get_free_voice, List.replicate_succ,
    zero_voice]

end headroom

/-! ## Lemmas on the envelope in float arithmetic -/

namespace binary32

theorem force_eq {β : Type} (n : Nat) (k : Nat → β) : force n k = k n := by
  cases n <;> rfl

theorem decay_eq (f : f32) (k : Nat) (a : f32) : decay f k a = (decay_step f)^[k] a := by
  induction k generalizing a with
  | zero => rfl
  | succ k ih =>
    rw [Function.iterate_succ_apply]
    unfold decay
    rw [force_eq]
    exact ih _

end binary32


/-! ## The envelope in float arithmetic, evaluated -/

namespace binary32

end binary32

/-! ## The claims on the envelope in float arithmetic -/

namespace binary32

end binary32

namespace binary32

/-- C3, as stated, fails on the float arithmetic of the code, with `sin` the
constant 0.  At 44100 Hz a table whose first slot is active with all fields
zero gets `attack = 1/0 = inf` from the first sample, and the second sample of
the buffer is `0 * inf`, a NaN, which passes both tests of the clip.  At the
sample rate 0 the same happens to the voice of `packet_handler`. -/
theorem process_writes_nan :
    (process (fun _ => zero false) 44100 2
        (busy_voice :: List.replicate 15 zero_voice)).2.map is_nan = [false, true] ∧
    (process (fun _ => zero false) 0 2
        (new_voice (of_nat 440) 0 0 :: List.replicate 15 zero_voice)).2.map is_nan =
      [false, true] := by
  decide!

end binary32

/-! ## The claims on the voice table and the output bound -/

section claims

variable {α : Type} [LinearOrderedField α]

/-- C1: when every slot of the table is active, `packet_handler` leaves the
table as it is, whatever the packet length and the results of `rand()`; and
for every sequence of packets and render passes from the table of
`init_voices`, the table keeps its `MAX_VOICES` slots, at most `MAX_VOICES`
voices are active, and a further packet leaves every active voice as it is. -/
theorem full_table_drops_packet (sin : α → α) (pow : α → α → α) :
    (∀ (voices : List (voice α)) (len r1 r2 r3 r4 : Nat),
        voices.length = MAX_VOICES → (∀ v ∈ voices, v.active = true) →
        packet_handler pow len r1 r2 r3 r4 voices = voices) ∧
    (∀ es : List event,
        (run sin pow init_voices es).length = MAX_VOICES ∧
        active_count (run sin pow init_voices es) ≤ MAX_VOICES ∧
        ∀ (len r1 r2 r3 r4 i : Nat) (v : voice α),
          (run sin pow init_voices es)[i]? = some v → v.active = true →
          (packet_handler pow len r1 r2 r3 r4 (run sin pow init_voices es))[i]? = some v) := by
  refine ⟨?_, ?_⟩
  · intro voices len r1 r2 r3 r4 _ hall
    unfold packet_handler
    rw [get_free_voice_eq_none.mpr hall]
  · intro es
    have hlen : (run sin pow (init_voices : List (voice α)) es).length = MAX_VOICES := by
      rw [run_length]
      simp [init_voices]
    refine ⟨hlen, ?_, ?_⟩
    · rw [← hlen]
      exact List.countP_le_length _
    · intro len r1 r2 r3 r4 i v hv ha
      exact packet_handler_keeps_active pow len r1 r2 r3 r4 _ i v hv ha

/-- C2: when the table has an inactive slot, `get_free_voice` returns the
lowest index whose slot is inactive, `packet_handler` writes the new, active
voice there and leaves every other slot as it is, so one more voice is active;
and two packets in a row on the table of `init_voices` give 2 active voices. -/
theorem packet_takes_first_free_slot (pow : α → α → α) :
    (∀ (voices : List (voice α)) (len r1 r2 r3 r4 : Nat),
        (∃ v ∈ voices, v.active = false) →
        ∃ i : Nat, get_free_voice voices = some i ∧
          (∃ v, voices[i]? = some v ∧ v.active = false) ∧
          (∀ j w, j < i → voices[j]? = some w → w.active = true) ∧
          (packet_handler pow len r1 r2 r3 r4 voices).length = voices.length ∧
          (packet_handler pow len r1 r2 r3 r4 voices)[i]? =
            some (new_voice pow len r1 r2 r3 r4) ∧
          (new_voice pow len r1 r2 r3 r4).active = true ∧
          (∀ j, j ≠ i → (packet_handler pow len r1 r2 r3 r4 voices)[j]? = voices[j]?) ∧
          active_count (packet_handler pow len r1 r2 r3 r4 voices) =
            active_count voices + 1) ∧
    (∀ (len r1 r2 r3 r4 len' r1' r2' r3' r4' : Nat),
        active_count (packet_handler pow len' r1' r2' r3' r4'
          (packet_handler pow len r1 r2 r3 r4 (init_voices : List (voice α)))) = 2) := by
  have key : ∀ (voices : List (voice α)) (len r1 r2 r3 r4 : Nat),
      (∃ v ∈ voices, v.active = false) →
      ∃ i : Nat, get_free_voice voices = some i ∧
        (∃ v, voices[i]? = some v ∧ v.active = false) ∧
        (∀ j w, j < i → voices[j]? = some w → w.active = true) ∧
        (packet_handler pow len r1 r2 r3 r4 voices).length = voices.length ∧
        (packet_handler pow len r1 r2 r3 r4 voices)[i]? =
          some (new_voice pow len r1 r2 r3 r4) ∧
        (new_voice pow len r1 r2 r3 r4).active = true ∧
        (∀ j, j ≠ i → (packet_handler pow len r1 r2 r3 r4 voices)[j]? = voices[j]?) ∧
        active_count (packet_handler pow len r1 r2 r3 r4 voices) =
          active_count voices + 1 := by
    intro voices len r1 r2 r3 r4 h
    obtain ⟨i, hi⟩ := get_free_voice_isSome h
    obtain ⟨⟨u, hu, hua⟩, hlow⟩ := get_free_voice_spec hi
    have hlt : i < voices.length := by
      by_contra hcon
      rw [List.getElem?_eq_none (not_lt.mp hcon)] at hu
      cases hu
    have hp : packet_handler pow len r1 r2 r3 r4 voices =
        voices.set i (new_voice pow len r1 r2 r3 r4) := by
      unfold packet_handler
      rw [hi]
    refine ⟨i, hi, ⟨u, hu, hua⟩, hlow, packet_handler_length pow len r1 r2 r3 r4 voices,
      ?_, rfl, ?_, ?_⟩
    · rw [hp]
      simp [List.getElem?_set, hlt]
    · intro j hj
      rw [hp]
      simp [List.getElem?_set, Ne.symm hj]
    · rw [hp]
      exact active_count_set hu hua rfl
  refine ⟨key, ?_⟩
  intro len r1 r2 r3 r4 len' r1' r2' r3' r4'
  have h0 : active_count (init_voices : List (voice α)) = 0 := by
    simp [active_count, init_voices, zero_voice, List.countP_replicate]
  have hfree0 : ∃ v ∈ (init_voices : List (voice α)), v.active = false :=
    ⟨zero_voice, by simp [init_voices, MAX_VOICES], rfl⟩
  obtain ⟨i, _, _, _, hl1, hi1, _, hoth1, hc1⟩ := key init_voices len r1 r2 r3 r4 hfree0
  have hfree1 : ∃ v ∈ packet_handler pow len r1 r2 r3 r4 (init_voices : List (voice α)),
      v.active = false := by
    have hlen : (packet_handler pow len r1 r2 r3 r4 (init_voices : List (voice α))).length
        = 16 := by
      rw [hl1]
      simp [init_voices, MAX_VOICES]
    by_contra hcon
    push_neg at hcon
    have hall : active_count (packet_handler pow len r1 r2 r3 r4
        (init_voices : List (voice α))) = 16 := by
      rw [← hlen]
      unfold active_count
      rw [List.countP_eq_length]
      intro v hv
      simpa using hcon v hv
    rw [hc1, h0] at hall
    omega
  obtain ⟨_, _, _, _, _, _, _, _, hc2⟩ := key _ len' r1' r2' r3' r4' hfree1
  rw [hc2, hc1, h0]

/-- C3 (amended): over the reals, for every sample rate `srate > 0`, every buffer
length and every table in which each active voice has an `attacklength` and a
`decaylength` that are not zero, so that `process` divides by no zero, `process`
writes a buffer of `nframes` samples, each of them in [-1, 1]; this holds for
every function `sin`. -/
theorem process_output_bounded (sin : α → α) (srate nframes : Nat)
    (voices : List (voice α)) (_hs : 0 < srate)
    (_hv : ∀ v ∈ voices, v.active = true → v.attacklength ≠ 0 ∧ v.decaylength ≠ 0) :
    (process sin srate nframes voices).2.length = nframes ∧
      ∀ y ∈ (process sin srate nframes voices).2, -1 ≤ y ∧ y ≤ 1 := by
  constructor
  · unfold process
    rw [(process_voices_length sin srate voices _).2]
    simp
  · unfold process
    apply process_voices_mem
    intro y hy
    rw [List.eq_of_mem_replicate hy]
    constructor <;> norm_num

/-- C5 (amended): for a voice set up by `packet_handler` and advanced sample by
sample at a rate `srate > 0`, `attack` never decreases from one sample to the
next; `amp` does not increase at any sample taken while the voice is still
active (the sample that retires it included), and at no sample at all when
`srate * decaylength ≥ 1`, which holds for every `srate ≥ 10`. -/
theorem envelope_monotone (pow : α → α → α) (len r1 r2 r3 r4 srate : Nat)
    (hs : 0 < srate) (k : Nat) :
    ((advance srate)^[k] (new_voice pow len r1 r2 r3 r4)).attack ≤
        ((advance srate)^[k + 1] (new_voice pow len r1 r2 r3 r4)).attack ∧
    (((advance srate)^[k] (new_voice pow len r1 r2 r3 r4)).active = true →
      ((advance srate)^[k + 1] (new_voice pow len r1 r2 r3 r4)).amp ≤
        ((advance srate)^[k] (new_voice pow len r1 r2 r3 r4)).amp) ∧
    (1 ≤ (srate : α) * (new_voice pow len r1 r2 r3 r4).decaylength →
      ((advance srate)^[k + 1] (new_voice pow len r1 r2 r3 r4)).amp ≤
        ((advance srate)^[k] (new_voice pow len r1 r2 r3 r4)).amp) ∧
    (10 ≤ srate → 1 ≤ (srate : α) * (new_voice pow len r1 r2 r3 r4).decaylength) := by
  have hsα : (0 : α) < (srate : α) := by exact_mod_cast hs
  have ha := new_voice_attacklength_pos pow len r1 r2 r3 r4
  have hd := new_voice_decaylength_ge pow len r1 r2 r3 r4
  have hamp := new_voice_amp pow len r1 r2 r3 r4
  have hdpos : 0 < (srate : α) * (new_voice pow len r1 r2 r3 r4).decaylength :=
    mul_pos hsα (by linarith)
  refine ⟨?_, ?_, ?_, ?_⟩
  · rw [Function.iterate_succ_apply']
    apply advance_attack_ge
    rw [iterate_advance_attacklength]
    exact mul_pos hsα (by linarith)
  · intro hact
    rw [Function.iterate_succ_apply']
    have h1 := iterate_advance_active_amp srate k (new_voice pow len r1 r2 r3 r4)
      (by rw [hamp]; norm_num) hact
    apply advance_amp_le
    · linarith
    · rw [iterate_advance_decaylength]
      exact hdpos
  · intro h1
    rw [Function.iterate_succ_apply']
    apply advance_amp_le
    · exact iterate_advance_amp_nonneg srate k _ (by rw [hamp]; norm_num) h1
    · rw [iterate_advance_decaylength]
      exact hdpos
  · intro h10
    have : (10 : α) ≤ (srate : α) := by exact_mod_cast h10
    nlinarith

/-- C8 (amended): for a voice set up by `packet_handler` and advanced at a rate
`srate > 0`, `attack` stays in the interval from 0 to
`1 + 1 / (srate * attacklength)`, the upper end excluded: the last step of the
ramp may pass 1 by less than one increment.  This holds after every number of
samples, and for the slot of the new voice after every sequence of render
passes. -/
theorem attack_range (sin : α → α) (pow : α → α → α) (len r1 r2 r3 r4 srate : Nat)
    (hs : 0 < srate) :
    (∀ k : Nat,
        0 ≤ ((advance srate)^[k] (new_voice pow len r1 r2 r3 r4)).attack ∧
        ((advance srate)^[k] (new_voice pow len r1 r2 r3 r4)).attack <
          1 + 1 / ((srate : α) * (new_voice pow len r1 r2 r3 r4).attacklength)) ∧
    (∀ (voices : List (voice α)) (i : Nat) (ns : List Nat),
        get_free_voice voices = some i →
        ∃ v, (run sin pow (packet_handler pow len r1 r2 r3 r4 voices)
                (ns.map (event.pass srate)))[i]? = some v ∧
          0 ≤ v.attack ∧ v.attack < 1 + 1 / ((srate : α) * v.attacklength)) := by
  have hsα : (0 : α) < (srate : α) := by exact_mod_cast hs
  have ha := new_voice_attacklength_pos pow len r1 r2 r3 r4
  have hpos : 0 < (srate : α) * (new_voice pow len r1 r2 r3 r4).attacklength :=
    mul_pos hsα (by linarith)
  have hinc : 0 < 1 / ((srate : α) * (new_voice pow len r1 r2 r3 r4).attacklength) :=
    one_div_pos.mpr hpos
  have key : ∀ k : Nat,
      0 ≤ ((advance srate)^[k] (new_voice pow len r1 r2 r3 r4)).attack ∧
      ((advance srate)^[k] (new_voice pow len r1 r2 r3 r4)).attack <
        1 + 1 / ((srate : α) * (new_voice pow len r1 r2 r3 r4).attacklength) := by
    intro k
    induction k with
    | zero =>
      show (0 : α) ≤ 0 ∧ (0 : α) < 1 + _
      exact ⟨le_refl _, by linarith⟩
    | succ k ih =>
      rw [Function.iterate_succ_apply', advance_attack, iterate_advance_attacklength]
      split_ifs with hlt
      · exact ⟨by linarith [ih.1], by linarith⟩
      · exact ih
  refine ⟨key, ?_⟩
  intro voices i ns hi
  obtain ⟨⟨u, hu, _⟩, _⟩ := get_free_voice_spec hi
  have hlt : i < voices.length := by
    by_contra hcon
    rw [List.getElem?_eq_none (not_lt.mp hcon)] at hu
    cases hu
  have hslot : (packet_handler pow len r1 r2 r3 r4 voices)[i]? =
      some (new_voice pow len r1 r2 r3 r4) := by
    unfold packet_handler
    rw [hi]
    simp [List.getElem?_set, hlt]
  obtain ⟨k, hk⟩ := run_passes_getElem? sin pow srate ns _ i _ hslot
  refine ⟨_, hk, ?_⟩
  rw [iterate_advance_attacklength]
  exact key k

/-- C4 (amended): in one call of `process` the `active` flag is read once per
voice, before its sample loop.  A voice that is active at that point is
advanced at every one of the `nframes` samples, and the buffer that `process`
writes holds at every position `s` the clipped sum in which each such voice has
added the term `sin(sinpos) * amp * attack` of the voice advanced `s` times,
whether or not the voice was marked inactive at an earlier sample; a voice
found inactive is left as it is and adds nothing. -/
theorem process_renders_whole_buffer (sin : α → α) (srate nframes : Nat)
    (voices : List (voice α)) :
    (process sin srate nframes voices).1 =
        voices.map
          (fun v => if v.active = true then (advance srate)^[nframes] v else v) ∧
    (process sin srate nframes voices).2 =
        (List.range nframes).map (mixed_sample sin srate voices) := by
  refine ⟨process_fst sin srate nframes voices, ?_⟩
  apply List.ext_getElem?
  intro s
  unfold process
  rw [process_voices_snd_getElem?]
  by_cases hs : s < nframes
  · simp [List.getElem?_replicate, List.getElem?_range, hs, mixed_sample]
  · have hle : nframes ≤ s := not_lt.mp hs
    rw [List.getElem?_eq_none (by simpa using hle), List.getElem?_eq_none (by simpa using hle)]
    rfl

/-- C4, as stated, fails: at 44100 Hz `retiring_voice` is marked inactive by the
first sample of a buffer of two, yet the second sample of the buffer gets a
positive term from it, and the voice leaves `process` with its phase and its
`amp` advanced a second time. -/
theorem retired_voice_still_rendered :
    (advance 44100 (retiring_voice : voice ℝ)).active = false ∧
    (∃ x, (process Real.sin 44100 2
        ((retiring_voice : voice ℝ) :: List.replicate 15 zero_voice)).2[1]? = some x ∧
      0 < x) ∧
    (∃ w, (process Real.sin 44100 2
        ((retiring_voice : voice ℝ) :: List.replicate 15 zero_voice)).1[0]? = some w ∧
      (advance 44100 (retiring_voice : voice ℝ)).sinpos < w.sinpos ∧
      w.amp < (advance 44100 (retiring_voice : voice ℝ)).amp) := by
  have h1 : advance 44100 (retiring_voice : voice ℝ) =
      { active := false, attack := 1, attacklength := 1 / 100, sinpos := 1 / 100,
        sinfreq := 441, amp := 4409 / 4410000, decaylength := 1 / 10, age := 0 } := by
    norm_num [advance, retiring_voice]
  have h2 : (advance 44100)^[2] (retiring_voice : voice ℝ) =
      { active := false, attack := 1, attacklength := 1 / 100, sinpos := 2 / 100,
        sinfreq := 441, amp := 4409 / 4410000 * (4409 / 4410), decaylength := 1 / 10,
        age := 0 } := by
    rw [Function.iterate_succ_apply', Function.iterate_one, h1]
    norm_num [advance]
  have hact : (retiring_voice : voice ℝ).active = true := by simp [retiring_voice]
  refine ⟨by rw [h1], ?_, ?_⟩
  · rw [process_single Real.sin 44100 2 _ _ hact (zero_voice_inactive 15),
      render_replicate_getElem? Real.sin 44100 2 1 _ (by norm_num)]
    refine ⟨_, Eq.refl _, ?_⟩
    apply clip_pos
    rw [Function.iterate_one, h1]
    have hsin : 0 < Real.sin (1 / 100) :=
      Real.sin_pos_of_pos_of_lt_pi (by norm_num) (by linarith [Real.pi_gt_three])
    simp only [mul_one]
    exact mul_pos hsin (by norm_num)
  · rw [process_fst]
    refine ⟨(advance 44100)^[2] (retiring_voice : voice ℝ), ?_, ?_, ?_⟩
    · simp [hact]
    · rw [h1, h2]
      norm_num
    · rw [h1, h2]
      norm_num

/-- Where the headroom of `0.5 / MAX_VOICES` per voice is enough, in exact
arithmetic: when all render passes run at sample rates of at least 1000, then
for every table reached from `init_voices` by packets and render passes, with
`sin` taking values in [-1, 1], every sample of the buffer written by `process`
is the unclamped sum of the voices' terms at that position, and this sum lies
in [-1, 1]. -/
theorem headroom_without_clip (sin : α → α) (pow : α → α → α)
    (hsin : ∀ x, -1 ≤ sin x ∧ sin x ≤ 1) :
    (∀ len r1 r2 r3 r4 : Nat,
        (new_voice pow len r1 r2 r3 r4).amp = (1 / 2) / (MAX_VOICES : α)) ∧
    (∀ (es : List event), (∀ sr n, event.pass sr n ∈ es → 1000 ≤ sr) →
      ∀ srate nframes s : Nat, 1000 ≤ srate → s < nframes →
        (process sin srate nframes (run sin pow init_voices es)).2[s]? =
          some (unclamped_sum sin srate (run sin pow init_voices es) s) ∧
        -1 ≤ unclamped_sum sin srate (run sin pow init_voices es) s ∧
        unclamped_sum sin srate (run sin pow init_voices es) s ≤ 1) := by
  refine ⟨fun _ _ _ _ _ => rfl, ?_⟩
  intro es hes srate nframes s hs hlt
  have hok : table_ok (run sin pow (init_voices : List (voice α)) es) :=
    table_ok_run sin pow es hes _ table_ok_init
  have hlen : (run sin pow (init_voices : List (voice α)) es).length = 16 := by
    rw [run_length]
    simp [init_voices, MAX_VOICES]
  have hsum := abs_unclamped_sum_le sin hsin srate hs _ hok s
  rw [hlen] at hsum
  have hsum' : |unclamped_sum sin srate (run sin pow (init_voices : List (voice α)) es) s|
      ≤ 1 := by
    have : ((16 : Nat) : α) / 16 = 1 := by norm_num
    linarith
  refine ⟨?_, (abs_le.mp hsum').1, (abs_le.mp hsum').2⟩
  have hx : (List.replicate nframes (0 : α))[s]? = some 0 := by
    simp [List.getElem?_replicate, hlt]
  have := process_voices_unclamped sin hsin srate hs _ hok (List.replicate nframes 0) 0
    (fun x hx => by rw [List.eq_of_mem_replicate hx]; simp)
    (by rw [hlen]; norm_num) s 0 hx
  rw [zero_add] at this
  exact this

/-- C5, as stated, fails at the sample rate 5: the voice set up by a packet
with `rand()` results 0 has `attack ≥ 1` after one sample, is marked inactive by
the second sample, and its `amp` rises from the second to the third sample of
the same buffer of three. -/
theorem amp_rises_at_low_rate :
    1 ≤ ((advance 5)^[1] (new_voice (fun x y : ℝ => x ^ y) 0 0 0 0 0)).attack ∧
    ((advance 5)^[2] (new_voice (fun x y : ℝ => x ^ y) 0 0 0 0 0)).amp <
      ((advance 5)^[3] (new_voice (fun x y : ℝ => x ^ y) 0 0 0 0 0)).amp ∧
    (process Real.sin 5 3
        (run Real.sin (fun x y : ℝ => x ^ y) init_voices [event.packet 0 0 0 0 0])).1[0]? =
      some ((advance 5)^[3] (new_voice (fun x y : ℝ => x ^ y) 0 0 0 0 0)) := by
  have h1 : advance 5 (new_voice (fun x y : ℝ => x ^ y) 0 0 0 0 0) =
      { active := true, attack := 200, attacklength := 1 / 1000,
        sinpos := 3455749 / 50000, sinfreq := 3455749 / 10000, amp := 1 / 32,
        decaylength := 1 / 10, age := 0 } := by
    norm_num [advance, new_voice, MAX_VOICES]
  have h2 : (advance 5)^[2] (new_voice (fun x y : ℝ => x ^ y) 0 0 0 0 0) =
      { active := false, attack := 200, attacklength := 1 / 1000,
        sinpos := 3455749 / 25000, sinfreq := 3455749 / 10000, amp := -(1 / 32),
        decaylength := 1 / 10, age := 0 } := by
    rw [Function.iterate_succ_apply', Function.iterate_one, h1]
    norm_num [advance]
  have h3 : (advance 5)^[3] (new_voice (fun x y : ℝ => x ^ y) 0 0 0 0 0) =
      { active := false, attack := 200, attacklength := 1 / 1000,
        sinpos := 10367247 / 50000, sinfreq := 3455749 / 10000, amp := 1 / 32,
        decaylength := 1 / 10, age := 0 } := by
    rw [Function.iterate_succ_apply', h2]
    norm_num [advance]
  refine ⟨?_, ?_, ?_⟩
  · rw [Function.iterate_one, h1]
    norm_num
  · rw [h2, h3]
    norm_num
  · have hrun : run Real.sin (fun x y : ℝ => x ^ y) init_voices [event.packet 0 0 0 0 0] =
        new_voice (fun x y : ℝ => x ^ y) 0 0 0 0 0 :: List.replicate 15 zero_voice := by
      simp only [run, List.foldl, step]
      exact packet_handler_init _ 0 0 0 0 0
    have hact : (new_voice (fun x y : ℝ => x ^ y) 0 0 0 0 0).active = true := by
      simp [new_voice]
    rw [hrun, process_fst]
    simp [hact]

/-- C8, as stated, fails at 44100 Hz: for the voice set up by a packet with
`rand()` results 0 (`attacklength` 1 ms) a render pass of 45 frames leaves
`attack` at 50/49, above 1. -/
theorem attack_passes_one :
    ∃ w, (process Real.sin 44100 45
        (run Real.sin (fun x y : ℝ => x ^ y) init_voices [event.packet 0 0 0 0 0])).1[0]? =
          some w ∧ w.attack = 50 / 49 ∧ 1 < w.attack := by
  have hrun : run Real.sin (fun x y : ℝ => x ^ y) init_voices [event.packet 0 0 0 0 0] =
      new_voice (fun x y : ℝ => x ^ y) 0 0 0 0 0 :: List.replicate 15 zero_voice := by
    simp only [run, List.foldl, step]
    exact packet_handler_init _ 0 0 0 0 0
  have hact : (new_voice (fun x y : ℝ => x ^ y) 0 0 0 0 0).active = true := by
    simp [new_voice]
  have hlen : (new_voice (fun x y : ℝ => x ^ y) 0 0 0 0 0).attacklength = 1 / 1000 := by
    norm_num [new_voice]
  have hatt0 : (new_voice (fun x y : ℝ => x ^ y) 0 0 0 0 0).attack = 0 := by
    simp [new_voice]
  have hprod : ((44100 : Nat) : ℝ) *
      (new_voice (fun x y : ℝ => x ^ y) 0 0 0 0 0).attacklength = 441 / 10 := by
    rw [hlen]
    norm_num
  have hceil : ⌈((44100 : Nat) : ℝ) *
      (new_voice (fun x y : ℝ => x ^ y) 0 0 0 0 0).attacklength⌉₊ = 45 := by
    rw [hprod, Nat.ceil_eq_iff (by norm_num)]
    norm_num
  have hval : ((advance 44100)^[45] (new_voice (fun x y : ℝ => x ^ y) 0 0 0 0 0)).attack =
      50 / 49 := by
    rw [iterate_advance_attack 44100 _ hatt0 (by rw [hprod]; norm_num) 45, hceil, hprod]
    norm_num
  refine ⟨(advance 44100)^[45] (new_voice (fun x y : ℝ => x ^ y) 0 0 0 0 0), ?_, hval, ?_⟩
  · rw [hrun, process_fst]
    simp [hact]
  · rw [hval]
    norm_num

/-! ## The theorems at concrete inputs -/

/-- C1 on a table of 16 busy slots. -/
theorem full_table_drops_packet_witness :
    (List.replicate 16 (busy_voice : voice ℚ)).length = MAX_VOICES ∧
    (∀ v ∈ List.replicate 16 (busy_voice : voice ℚ), v.active = true) ∧
    packet_handler (fun _ _ => (1 : ℚ)) 1500 7 8 9 10 (List.replicate 16 busy_voice) =
      List.replicate 16 busy_voice :=
  have hlen : (List.replicate 16 (busy_voice : voice ℚ)).length = MAX_VOICES := by
    simp [MAX_VOICES]
  have hall : ∀ v ∈ List.replicate 16 (busy_voice : voice ℚ), v.active = true := by
    intro v hv
    rw [List.eq_of_mem_replicate hv]
    rfl
  ⟨hlen, hall,
    (full_table_drops_packet (fun _ => (0 : ℚ)) (fun _ _ => (1 : ℚ))).1 _ 1500 7 8 9 10
      hlen hall⟩

/-- C2 on the table of `init_voices`. -/
theorem packet_takes_first_free_slot_witness :
    (∃ v ∈ (init_voices : List (voice ℚ)), v.active = false) ∧
    ∃ i : Nat, get_free_voice (init_voices : List (voice ℚ)) = some i ∧
      active_count (packet_handler (fun _ _ => (1 : ℚ)) 1500 7 8 9 10 init_voices) =
        active_count (init_voices : List (voice ℚ)) + 1 :=
  have hfree : ∃ v ∈ (init_voices : List (voice ℚ)), v.active = false :=
    ⟨zero_voice, by simp [init_voices, MAX_VOICES], rfl⟩
  ⟨hfree,
    match (packet_takes_first_free_slot (fun _ _ => (1 : ℚ))).1 init_voices 1500 7 8 9 10
      hfree with
    | ⟨i, hi, _, _, _, _, _, _, hc⟩ => ⟨i, hi, hc⟩⟩

/-- C5 (amended) at 44100 Hz, after 500 samples. -/
theorem envelope_monotone_witness :
    0 < 44100 ∧
    ((advance 44100)^[500] (new_voice (fun _ _ => (1 : ℚ)) 1500 7 8 9 10)).attack ≤
      ((advance 44100)^[500 + 1] (new_voice (fun _ _ => (1 : ℚ)) 1500 7 8 9 10)).attack :=
  ⟨by decide,
    (envelope_monotone (fun _ _ => (1 : ℚ)) 1500 7 8 9 10 44100 (by decide) 500).1⟩

/-- C8 (amended) at 44100 Hz, after 45 samples. -/
theorem attack_range_witness :
    0 < 44100 ∧
    0 ≤ ((advance 44100)^[45] (new_voice (fun _ _ => (1 : ℚ)) 0 0 0 0 0)).attack ∧
    ((advance 44100)^[45] (new_voice (fun _ _ => (1 : ℚ)) 0 0 0 0 0)).attack <
      1 + 1 / (((44100 : Nat) : ℚ) * (new_voice (fun _ _ => (1 : ℚ)) 0 0 0 0 0).attacklength) :=
  ⟨by decide,
    (attack_range (fun _ => (0 : ℚ)) (fun _ _ => (1 : ℚ)) 0 0 0 0 0 44100 (by decide)).1 45⟩

/-- C3 (amended) on the table after one packet, at 44100 Hz. -/
theorem process_output_bounded_witness :
    0 < 44100 ∧
    (∀ v ∈ packet_handler (fun _ _ => (1 : ℚ)) 1500 7 8 9 10 init_voices,
      v.active = true → v.attacklength ≠ 0 ∧ v.decaylength ≠ 0) ∧
    (process (fun _ => (0 : ℚ)) 44100 64
      (packet_handler (fun _ _ => (1 : ℚ)) 1500 7 8 9 10 init_voices)).2.length = 64 :=
  have hv : ∀ v ∈ packet_handler (fun _ _ => (1 : ℚ)) 1500 7 8 9 10 init_voices,
      v.active = true → v.attacklength ≠ 0 ∧ v.decaylength ≠ 0 := by
    intro v hv hact
    rw [packet_handler_init] at hv
    rcases List.mem_cons.mp hv with rfl | hz
    · have h1 := new_voice_attacklength_pos (fun _ _ => (1 : ℚ)) 1500 7 8 9 10
      have h2 := new_voice_decaylength_ge (fun _ _ => (1 : ℚ)) 1500 7 8 9 10
      constructor
      · intro h0
        rw [h0] at h1
        norm_num at h1
      · intro h0
        rw [h0] at h2
        norm_num at h2
    · rw [zero_voice_inactive 15 v hz] at hact
      cases hact
  ⟨by decide, hv,
    (process_output_bounded (fun _ => (0 : ℚ)) 44100 64 _ (by decide) hv).1⟩

end claims

end hearnet_cpp

namespace hearnet_c

/-- Every copy made by the grain loop has a byte count between 0 and
`GRAIN_PERIOD`. -/
theorem grain_loop_count (len play_grain : Int) (fuel : Nat) (i : Int) (hi : 0 ≤ i) :
    ∀ c ∈ grain_loop len play_grain fuel i, 0 ≤ c.n ∧ c.n ≤ GRAIN_PERIOD := by
  induction fuel generalizing i with
  | zero => simp [grain_loop]
  | succ fuel ih =>
    intro c hc
    unfold grain_loop at hc
    split_ifs at hc with h1 h2
    · simp at hc
    · simp only [List.mem_cons] at hc
      rcases hc with rfl | hc
      · simp only [GRAIN_PERIOD] at h2 ⊢
        split_ifs <;> constructor <;> omega
      · exact ih (i + 1) (by omega) c hc
    · simp at hc

/-- C10, evaluated: with a buffer of 64 frames (256 bytes) and 3 pending
grains, `process` makes three copies of 44 bytes at the byte offsets 0, 176 and
352; the third one starts and ends after the end of the buffer. -/
theorem grain_copy_past_buffer :
    process 64 3 = [⟨0, 44⟩, ⟨176, 44⟩, ⟨352, 44⟩] ∧
      ¬ (∀ c ∈ process 64 3, c.dest + c.n ≤ SAMPLE_SIZE * 64) := by
  have h : process 64 3 = [⟨0, 44⟩, ⟨176, 44⟩, ⟨352, 44⟩] := by decide
  refine ⟨h, ?_⟩
  rw [h]
  intro hall
  have := hall ⟨352, 44⟩ (by simp)
  simp [SAMPLE_SIZE] at this

end hearnet_c

